import Mathlib

set_option maxRecDepth 100000

/-!
Verification of the pyALF output-file parsers and parameter resolver
(`py_alf.py`, `default_variables.py`).

The embedding works at the token level: a file is a list of lines, and a
line is the list of its whitespace-separated tokens.  A token either
denotes a number (`some v`) or is a non-numeric label (`none`).  Numeric
values are modeled as exact decimals `Val` (mantissa and decimal
exponent), since the parsers only select and transport values and never
compute with them.  Fallible Python code (IndexError, ValueError from
numpy shape mismatches, KeyError, explicit raise) is modeled with
`Option`, a parse returning `none` where the Python code raises.
-/

namespace PyAlf

/-- An exact decimal value `mant * 10 ^ (-exp)`, the value carried by a
numeric token.  Equality is structural, which is what "exact recovery" of
a written value means. -/
structure Val where
  mant : Int
  exp : Nat
deriving DecidableEq

/-- A whitespace-separated token: `some v` when numeric, `none` for a
non-numeric label column. -/
abbrev Tok := Option Val

/-- One line of an output file, after whitespace splitting
(Python `line.split()`). -/
abbrev Line := List Tok

/-- Python `l[-k:]`, the last `k` elements of a list (all of them when the
list is shorter). -/
def takeLast (k : Nat) (l : List α) : List α := l.drop (l.length - k)

/-- Run an option-valued function over a list, failing on the first
failure, mirroring a Python loop that raises on a bad element. -/
def mapO (f : α → Option β) : List α → Option (List β)
  | [] => some []
  | a :: l =>
    match f a with
    | none => none
    | some b =>
      match mapO f l with
      | none => none
      | some bs => some (b :: bs)

/-- `np.loadtxt` applied to a list of tokens: succeeds iff every token is
numeric, returning their values. -/
def loadtxt (toks : List Tok) : Option (List Val) := mapO id toks

/-- Assignment of a parsed vector into a numpy slot of length `width`
(such as `obs[iobs] = ...` or `dat[i_x, i_orb1, i_orb2] = ...`): the
lengths must agree, except that numpy broadcasts a single value; any
other mismatch raises ValueError. -/
def fitSlot (width : Nat) (vals : List Val) : Option (List Val) :=
  if vals.length = width then some vals
  else
    match vals with
    | [v] => some (List.replicate width v)
    | _ => none

/-- Structural (kernel-computable) integer square root, helper for
`isqrt`. `sqrtAux n k` is the largest `j ≤ k` with `j * j ≤ n`. -/
def sqrtAux (n : Nat) : Nat → Nat
  | 0 => 0
  | k + 1 => if (k + 1) * (k + 1) ≤ n then k + 1 else sqrtAux n k

/-- Python `int(np.sqrt(n))` on a natural number: the floor integer
square root. -/
def isqrt (n : Nat) : Nat := sqrtAux n n

/-- The record returned by `_read_scalJ`: the Monte Carlo `sign` pair and
the list of (mean, error) observable pairs. -/
structure ScalJRec where
  sign : List Val
  obs : List (List Val)
deriving DecidableEq

/-- The loop body of `_read_scalJ`:
`obs[iobs] = lines[2*iobs+2].split()[-2:]`, assigned into a numpy slot of
shape `(2,)`. -/
def scalItem (lines : List Line) (iobs : Nat) : Option (List Val) := do
  let line ← lines[2 * iobs + 2]?
  fitSlot 2 (← loadtxt (takeLast 2 line))

/-- Embedding of `py_alf._read_scalJ` (py_alf.py lines 402-416), after
the file has been read and split into token lines.

Python source, line by line:
`N_obs = int((len(lines)-2)/2)`;
`sign = np.loadtxt(lines[-1].split()[-2:])` (IndexError on an empty
file);
then the `scalItem` loop for `iobs in range(N_obs)`. -/
def read_scalJ (lines : List Line) : Option ScalJRec := do
  let lastLine ← lines.getLast?
  let N_obs := (lines.length - 2) / 2
  let sign ← loadtxt (takeLast 2 lastLine)
  let obs ← mapO (scalItem lines) (List.range N_obs)
  pure ⟨sign, obs⟩

/-- The `K`/`R` suffix of an equal-time correlator file name
(`*_eqJK` or `*_eqJR`), which get_obs dispatches on. -/
inductive KR
  | K
  | R
deriving DecidableEq

/-- The coordinate key chosen from the file-name suffix:
`'k'` for momentum space, `'r'` for real space. -/
def x_name : KR → String
  | KR.K => "k"
  | KR.R => "r"

/-- The record returned by `_read_eqJ`: the coordinate key, the list of
coordinate 2-vectors, and the 4-dimensional data array as nested lists
indexed `[i_x][i_orb1][i_orb2][component]`. -/
structure EqJRec where
  key : String
  x : List (List Val)
  dat : List (List (List (List Val)))
deriving DecidableEq

/-- The scan of `_read_eqJ` lines 433-436: starting from counter `i`,
return the index of the first line whose token count is 2, or `none` if
the list is exhausted. -/
def scanShort : List Line → Nat → Option Nat
  | [], _ => none
  | l :: ls, i => if l.length = 2 then some i else scanShort ls (i + 1)

/-- Shape inference for `N_orb` (`_read_eqJ` lines 431-438): scan lines
at indices `1, ..., N_lines - 1`; on the first line with exactly 2
tokens, at index `i`, take `int(np.sqrt(i-1))`; if none is found the
Python loop leaves `i = N_lines - 1` and the same formula is applied.
When `N_lines < 2` the loop body never runs and the loop variable `i` is
unbound, so line 438 raises NameError: modeled as `none`. -/
def infer_N_orb (lines : List Line) : Option Nat :=
  if lines.length < 2 then none
  else
    match scanShort (lines.drop 1) 1 with
    | some i => some (isqrt (i - 1))
    | none => some (isqrt (lines.length - 2))

/-- Shape inference for `N_x` (`_read_eqJ` line 440):
`N_x = int(N_lines / (1 + N_orb**2))`, a truncating division. -/
def infer_N_x (lines : List Line) (N_orb : Nat) : Nat :=
  lines.length / (1 + N_orb ^ 2)

/-- The coordinate assignment of `_read_eqJ`:
`x[i_x] = np.loadtxt(lines[i_x*(1 + N_orb**2)].split())` into a numpy
slot of shape `(2,)`. -/
def xItem (lines : List Line) (N_orb i_x : Nat) : Option (List Val) := do
  let line ← lines[i_x * (1 + N_orb ^ 2)]?
  fitSlot 2 (← loadtxt line)

/-- The data assignment of `_read_eqJ`:
`dat[i_x, i_orb1, i_orb2] =
 np.loadtxt(lines[i_x*(1+N_orb**2)+1+i_orb1*N_orb+i_orb2].split()[2:])`
into a numpy slot of shape `(4,)`; note the `[2:]`, which drops exactly
the first two tokens of the data line. -/
def datItem (lines : List Line) (N_orb i_x i_orb1 i_orb2 : Nat) : Option (List Val) := do
  let line ← lines[i_x * (1 + N_orb ^ 2) + 1 + i_orb1 * N_orb + i_orb2]?
  fitSlot 4 (← loadtxt (line.drop 2))

/-- Embedding of `py_alf._read_eqJ` (py_alf.py lines 419-452), after the
file has been read and split into token lines; the suffix stands for the
trailing `K`/`R` of the file name.  The loop bodies are `xItem` and
`datItem` above. -/
def read_eqJ (suffix : KR) (lines : List Line) : Option EqJRec := do
  let N_orb ← infer_N_orb lines
  let N_x := infer_N_x lines N_orb
  let x ← mapO (xItem lines N_orb) (List.range N_x)
  let dat ← mapO (fun i_x =>
      mapO (fun i_orb1 =>
          mapO (datItem lines N_orb i_x i_orb1) (List.range N_orb))
        (List.range N_orb))
    (List.range N_x)
  pure ⟨x_name suffix, x, dat⟩

/-- A parameter value: the four Python types that occur in the default
tables and that `_convert_par_to_str` recognizes.  Floats are exact
decimals. -/
inductive PVal
  | pBool : Bool → PVal
  | pInt : Int → PVal
  | pFloat : Val → PVal
  | pStr : String → PVal
deriving DecidableEq

/-- One entry of a namelist: variable name, current value, and the
documentation string (Python `name: [value, comment]`). -/
abbrev Entry := String × PVal × String

/-- A parameter structure: the ordered association of namelist names to
their ordered entries, mirroring the nested OrderedDicts. -/
abbrev Params := List (String × List Entry)

/-- A user override dictionary (`sim_dict`): ordered key-value pairs. -/
abbrev Dict := List (String × PVal)

/-- Python `s.lower()`, restricted to the ASCII names used here. -/
def lowerStr (s : String) : String := ⟨s.data.map Char.toLower⟩

/-- Ordered association-list lookup, modeling Python dict access
`d[k]` as `none` on KeyError. -/
def alookup (k : String) : List (String × α) → Option α
  | [] => none
  | (k2, v) :: rest => if k2 = k then some v else alookup k rest

/-- `default_variables.IN_HAM`: which `PARAMS_MODEL` namelists each
hamiltonian needs. -/
def IN_HAM : List (String × List String) :=
  [("Hubbard", ["VAR_Lattice", "VAR_Model_Generic", "VAR_Hubbard"]),
   ("Hubbard_Plain_Vanilla", ["VAR_Lattice", "VAR_Hubbard_Plain_Vanilla"]),
   ("Kondo", ["VAR_Lattice", "VAR_Model_Generic", "VAR_Kondo"]),
   ("tV", ["VAR_Lattice", "VAR_Model_Generic", "VAR_tV"]),
   ("LRC", ["VAR_Lattice", "VAR_Model_Generic", "VAR_LRC"]),
   ("Z2_Matter", ["VAR_Lattice", "VAR_Z2_Matter"])]

/-- `default_variables.PARAMS_GENERIC`: the generic namelists, in
insertion order. -/
def PARAMS_GENERIC : Params :=
  [("VAR_QMC",
    [("Nwrap", .pInt 10, "Stabilization. Green functions will be computed from scratch after each time interval Nwrap*Dtau."),
     ("Nsweep", .pInt 100, "Number of sweeps per bin."),
     ("Nbin", .pInt 5, "Number of bins."),
     ("Ltau", .pInt 1, "1 to calculate time-displaced Green functions; 0 otherwise."),
     ("LOBS_ST", .pInt 0, "Start measurements at time slice LOBS_ST"),
     ("LOBS_EN", .pInt 0, "End measurements at time slice LOBS_EN"),
     ("CPU_MAX", .pFloat ⟨0, 1⟩, "Code stops after CPU_MAX hours, if 0 or not specified, the code stops after Nbin bins"),
     ("Propose_S0", .pBool false, "Proposes single spin flip moves with probability exp(-S0)."),
     ("Global_moves", .pBool false, "Allows for global moves in space and time."),
     ("N_global", .pInt 1, "Number of global moves per sweep."),
     ("Global_tau_moves", .pBool false, "Allows for global moves on a single time slice."),
     ("N_global_tau", .pInt 1, "Number of global moves that will be carried out on a single time slice."),
     ("Nt_sequential_start", .pInt 0, ""),
     ("Nt_sequential_end", .pInt (-1), ""),
     ("Langevin", .pBool false, "Langevin update"),
     ("Delta_t_Langevin_HMC", .pFloat ⟨1, 2⟩, "Time step for Langevin or HMC"),
     ("Max_Force", .pFloat ⟨15, 1⟩, "Max Force for Langevin"),
     ("HMC", .pBool false, "HMC update"),
     ("Leapfrog_steps", .pInt 0, "Number of leapfrog steps")]),
   ("VAR_errors",
    [("N_skip", .pInt 1, "Number of bins to be skipped."),
     ("N_rebin", .pInt 1, "Rebinning: Number of bins to combine into one."),
     ("N_Cov", .pInt 0, "If set to 1, covariance computed for time-displaced correlation functions."),
     ("N_Back", .pInt 1, "If set to 1, substract background in correlation functions."),
     ("N_auto", .pInt 0, "If > 0, calculate autocorrelation.")]),
   ("VAR_TEMP",
    [("N_exchange_steps", .pInt 6, "Number of exchange moves."),
     ("N_Tempering_frequency", .pInt 10, "The frequency, in units of sweeps, at which the exchange moves are carried out."),
     ("mpi_per_parameter_set", .pInt 2, "Number of mpi-processes per parameter set."),
     ("Tempering_calc_det", .pBool true, "Specifies whether the fermion weight has to be taken into account while tempering. Can be set to .F. if the parameters that get varied only enter the Ising action S_0")]),
   ("VAR_Max_Stoch",
    [("Ngamma", .pInt 400, "Number of Dirac delta-functions for parametrization."),
     ("Om_st", .pFloat ⟨-100, 1⟩, "Frequency range lower bound."),
     ("Om_en", .pFloat ⟨100, 1⟩, "Frequency range upper bound."),
     ("Ndis", .pInt 2000, "Number of boxes for histogram."),
     ("NBins", .pInt 250, "Number of bins for Monte Carlo."),
     ("NSweeps", .pInt 70, "Number of sweeps per bin."),
     ("Nwarm", .pInt 20, "The Nwarm first bins will be ommitted."),
     ("N_alpha", .pInt 14, "Number of temperatures."),
     ("alpha_st", .pFloat ⟨10, 1⟩, ""),
     ("R", .pFloat ⟨12, 1⟩, ""),
     ("Checkpoint", .pBool false, ""),
     ("Tolerance", .pFloat ⟨1, 1⟩, "")])]

/-- `default_variables.PARAMS_MODEL`: the per-model namelists, in
insertion order. -/
def PARAMS_MODEL : Params :=
  [("VAR_Lattice",
    [("L1", .pInt 6, ""),
     ("L2", .pInt 6, ""),
     ("Lattice_type", .pStr ("Square"), ""),
     ("Model", .pStr ("Hubbard"), "")]),
   ("VAR_Model_Generic",
    [("Checkerboard", .pBool true, ""),
     ("Symm", .pBool true, ""),
     ("N_SUN", .pInt 2, ""),
     ("N_FL", .pInt 1, ""),
     ("Phi_X", .pFloat ⟨0, 1⟩, ""),
     ("Phi_Y", .pFloat ⟨0, 1⟩, ""),
     ("Bulk", .pBool true, ""),
     ("N_Phi", .pInt 0, ""),
     ("Dtau", .pFloat ⟨1, 1⟩, ""),
     ("Beta", .pFloat ⟨50, 1⟩, ""),
     ("Projector", .pBool false, ""),
     ("Theta", .pFloat ⟨100, 1⟩, "")]),
   ("VAR_Hubbard",
    [("Mz", .pBool true, ""),
     ("ham_T", .pFloat ⟨10, 1⟩, ""),
     ("ham_chem", .pFloat ⟨0, 1⟩, ""),
     ("ham_U", .pFloat ⟨40, 1⟩, ""),
     ("ham_T2", .pFloat ⟨10, 1⟩, ""),
     ("ham_U2", .pFloat ⟨40, 1⟩, ""),
     ("ham_Tperp", .pFloat ⟨10, 1⟩, ""),
     ("Continuous", .pBool false, "Continuous HS transformation")]),
   ("VAR_tV",
    [("ham_T", .pFloat ⟨10, 1⟩, ""),
     ("ham_chem", .pFloat ⟨0, 1⟩, ""),
     ("ham_V", .pFloat ⟨5, 1⟩, ""),
     ("ham_T2", .pFloat ⟨10, 1⟩, ""),
     ("ham_V2", .pFloat ⟨5, 1⟩, ""),
     ("ham_Tperp", .pFloat ⟨10, 1⟩, ""),
     ("ham_Vperp", .pFloat ⟨5, 1⟩, "")]),
   ("VAR_Hubbard_Plain_Vanilla",
    [("ham_T", .pFloat ⟨10, 1⟩, ""),
     ("ham_chem", .pFloat ⟨0, 1⟩, ""),
     ("ham_U", .pFloat ⟨40, 1⟩, ""),
     ("Dtau", .pFloat ⟨1, 1⟩, ""),
     ("Beta", .pFloat ⟨50, 1⟩, ""),
     ("Projector", .pBool false, ""),
     ("Theta", .pFloat ⟨100, 1⟩, ""),
     ("Symm", .pBool true, "")]),
   ("VAR_Kondo",
    [("ham_T", .pFloat ⟨10, 1⟩, ""),
     ("ham_chem", .pFloat ⟨0, 1⟩, ""),
     ("ham_Uc", .pFloat ⟨0, 1⟩, ""),
     ("ham_Uf", .pFloat ⟨20, 1⟩, ""),
     ("ham_JK", .pFloat ⟨20, 1⟩, "")]),
   ("VAR_LRC",
    [("ham_T", .pFloat ⟨10, 1⟩, ""),
     ("ham_T2", .pFloat ⟨10, 1⟩, ""),
     ("ham_Tperp", .pFloat ⟨10, 1⟩, ""),
     ("ham_chem", .pFloat ⟨0, 1⟩, ""),
     ("ham_U", .pFloat ⟨40, 1⟩, ""),
     ("ham_alpha", .pFloat ⟨1, 1⟩, ""),
     ("Percent_change", .pFloat ⟨1, 1⟩, "")]),
   ("VAR_Z2_Matter",
    [("ham_T", .pFloat ⟨10, 1⟩, "Hopping for fermions"),
     ("ham_TZ2", .pFloat ⟨10, 1⟩, "Hopping for orthogonal fermions"),
     ("ham_chem", .pFloat ⟨0, 1⟩, "Chemical potential for fermions"),
     ("ham_U", .pFloat ⟨0, 1⟩, "Hubbard for fermions"),
     ("Ham_J", .pFloat ⟨10, 1⟩, "Hopping Z2 matter fields"),
     ("Ham_K", .pFloat ⟨10, 1⟩, "Plaquette term for gauge fields"),
     ("Ham_h", .pFloat ⟨10, 1⟩, "sigma^x-term for matter"),
     ("Ham_g", .pFloat ⟨10, 1⟩, "tau^x-term for gauge"),
     ("Dtau", .pFloat ⟨1, 1⟩, ""),
     ("Beta", .pFloat ⟨100, 1⟩, ""),
     ("N_SUN", .pInt 2, ""),
     ("Projector", .pBool false, ""),
     ("Theta", .pFloat ⟨100, 1⟩, "")])]

/-- Embedding of `default_variables.default_params`: build the full
default structure for a hamiltonian by copying its model namelists
(`copy.deepcopy`, so the module tables are never aliased) followed by
all generic namelists.  Unknown hamiltonian names raise KeyError,
modeled as `none`. -/
def default_params (ham_name : String) : Option Params := do
  let groups ← alookup ham_name IN_HAM
  let model ← mapO (fun nm => (alookup nm PARAMS_MODEL).map (fun es => (nm, es))) groups
  pure (model ++ PARAMS_GENERIC)

/-- Update of one namelist's entries by `_update_var`: the first entry
whose name matches case-insensitively gets the new value; `none` when no
entry matches. -/
def updEntries (var : String) (value : PVal) : List Entry → Option (List Entry)
  | [] => none
  | (v2, oldv, c) :: rest =>
    if lowerStr v2 = lowerStr var then some ((v2, value, c) :: rest)
    else (updEntries var value rest).map ((v2, oldv, c) :: ·)

/-- Embedding of `py_alf._update_var` (py_alf.py lines 265-272): scan the
namelists in order and update the first case-insensitively matching
variable; raise (here `none`) when no namelist contains the variable. -/
def update_var (var : String) (value : PVal) : Params → Option Params
  | [] => none
  | (nm, entries) :: rest =>
    match updEntries var value entries with
    | some es => some ((nm, es) :: rest)
    | none => (update_var var value rest).map ((nm, entries) :: ·)

/-- The override loop of `set_param`: apply `_update_var` for each pair
of the user dictionary in order, failing on the first unknown key. -/
def apply_updates : Dict → Params → Option Params
  | [], params => some params
  | (nm, v) :: rest, params =>
    match update_var nm v params with
    | none => none
    | some params2 => apply_updates rest params2

/-- Embedding of `py_alf.set_param` (py_alf.py lines 275-289): take the
defaults, append the `VAR_ham_name` namelist, then apply all overrides. -/
def set_param (ham_name : String) (sim_dict : Dict) : Option Params := do
  let params ← default_params ham_name
  let params := params ++
    [("VAR_ham_name", [("ham_name", PVal.pStr ham_name, "Name of Hamiltonian")])]
  apply_updates sim_dict params

/-- Case-insensitive scan of one namelist's entries for a variable's
current value. -/
def findVal (var : String) : List Entry → Option PVal
  | [] => none
  | e :: rest => if lowerStr e.1 = lowerStr var then some e.2.1 else findVal var rest

/-- Case-insensitive lookup of a parameter's current value, scanning
namelists and entries in the same order as `_update_var`. -/
def lookupVar (params : Params) (var : String) : Option PVal :=
  match params with
  | [] => none
  | nl :: rest =>
    match findVal var nl.2 with
    | some v => some v
    | none => lookupVar rest var

/-! ## File builders

Synthesized well-formed files, following the format description: a scalar
file is two header lines followed by line pairs, the first line of each
pair carrying the observable's (mean, error) as its trailing two tokens;
an equal-time file is a sequence of blocks, each a 2-token header line
followed by data lines of exactly 2 label tokens plus 4 numeric tokens. -/

/-- An observable data line of a scalar file: arbitrary leading label
tokens followed by the numeric (mean, error) pair. -/
structure ScalRow where
  pre : List Tok
  mean : Val
  err : Val

/-- The token line of a `ScalRow`. -/
def ScalRow.toLine (r : ScalRow) : Line := r.pre ++ [some r.mean, some r.err]

/-- A synthesized scalar file: two header lines, then for each pair its
observable line followed by an arbitrary companion line (the parser only
ever reads the even-indexed lines and the final line). -/
def mkScalFile (h0 h1 : Line) (rows : List (ScalRow × Line)) : List Line :=
  h0 :: h1 :: (rows.map (fun p => [p.1.toLine, p.2])).flatten

/-- A data line of an equal-time file: two label tokens (the orbital
indices in the source format) followed by the 4 numeric components. -/
structure DataRow where
  lab1 : Tok
  lab2 : Tok
  c0 : Val
  c1 : Val
  c2 : Val
  c3 : Val

/-- The token line of a `DataRow`, 6 tokens long. -/
def DataRow.toLine (r : DataRow) : Line :=
  [r.lab1, r.lab2, some r.c0, some r.c1, some r.c2, some r.c3]

/-- The 4 numeric components of a `DataRow`. -/
def DataRow.vals (r : DataRow) : List Val := [r.c0, r.c1, r.c2, r.c3]

/-- A junk `DataRow` used as the default of in-range `getD` accesses. -/
def dRow : DataRow := ⟨none, none, ⟨0, 0⟩, ⟨0, 0⟩, ⟨0, 0⟩, ⟨0, 0⟩⟩

/-- One spatial-point block: the coordinate header followed by the
row-major data rows. -/
structure Block where
  hx : Val
  hy : Val
  rows : List DataRow

/-- The header line of a block, 2 numeric tokens. -/
def Block.header (b : Block) : Line := [some b.hx, some b.hy]

/-- The token lines of a block. -/
def Block.toLines (b : Block) : List Line := b.header :: b.rows.map DataRow.toLine

/-- A synthesized equal-time file: the concatenated blocks. -/
def mkEqFile (blocks : List Block) : List Line := (blocks.map Block.toLines).flatten

/-- A junk `ScalRow` used as the default of in-range `getD` accesses. -/
def dSRow : ScalRow := ⟨[], ⟨0, 0⟩, ⟨0, 0⟩⟩

/-- A junk `Block` used as the default of in-range `getD` accesses. -/
def dBlock : Block := ⟨⟨0, 0⟩, ⟨0, 0⟩, []⟩

/-- A junk row-line pair used as the default of in-range `getD`. -/
def dPair : ScalRow × Line := (dSRow, [])

/-- Specification-side description of the scan target: `i` is the index
of the first line, from index 1 on, whose whitespace-split token count
equals 2. -/
def isFirstShort (lines : List Line) (i : Nat) : Prop :=
  1 ≤ i ∧ i < lines.length ∧ (lines.getD i []).length = 2 ∧
    ∀ j, j < i → 1 ≤ j → (lines.getD j []).length ≠ 2

instance (lines : List Line) (i : Nat) : Decidable (isFirstShort lines i) := by
  unfold isFirstShort
  infer_instance

/-- A parameter name is known in a parameter structure when some
namelist entry matches it case-insensitively. -/
def KnownVar (params : Params) (var : String) : Prop :=
  ∃ nl ∈ params, ∃ e ∈ nl.2, lowerStr e.1 = lowerStr var

instance (params : Params) (var : String) : Decidable (KnownVar params var) := by
  unfold KnownVar
  infer_instance

/-- The name skeleton of a parameter structure: namelist names with
their ordered entry names. -/
def varNames (params : Params) : List (String × List String) :=
  params.map (fun nl => (nl.1, nl.2.map (fun e => e.1)))

/-- A data line carrying three leading label columns before its 4 numeric
fields: allowed by the spec's "arbitrary amount of leading columns", but
not by the code's `[2:]`. -/
def c1_line : Line :=
  [none, none, none, some ⟨1, 0⟩, some ⟨2, 0⟩, some ⟨3, 0⟩, some ⟨4, 0⟩]

/-- An equal-time file (N_orb = 1, N_x = 2) whose first data line has 3
leading labels; its last 4 tokens are numeric, so the spec's reading
succeeds, but `_read_eqJ` consumes 5 tokens and fails. -/
def c1_file : List Line :=
  [[some ⟨0, 0⟩, some ⟨0, 0⟩],
   c1_line,
   [some ⟨1, 0⟩, some ⟨0, 0⟩],
   [none, none, some ⟨5, 0⟩, some ⟨6, 0⟩, some ⟨7, 0⟩, some ⟨8, 0⟩]]

/-- A single-block equal-time file with N_orb = 1, N_x = 1: one header
plus one 6-token data line. -/
def singleBlockFile : List Line :=
  mkEqFile [⟨⟨0, 0⟩, ⟨0, 0⟩, [⟨none, none, ⟨1, 0⟩, ⟨2, 0⟩, ⟨3, 0⟩, ⟨4, 0⟩⟩]⟩]

/-- A scalar file with 7 lines: 5 data lines beyond the 2-line header, an
odd count. -/
def oddScalFile : List Line :=
  [[none], [none],
   [none, some ⟨1, 0⟩, some ⟨2, 0⟩], [none],
   [none, some ⟨3, 0⟩, some ⟨4, 0⟩], [none],
   [none, some ⟨9, 0⟩, some ⟨5, 1⟩]]

/-- The spec's concrete 5-line scalar scenario, tokenized: the two header
lines, twice the observable line with values 1.2345 and 0.001 after a
label, then the sign line with values 0.98 and 0.0001 after a label. -/
def scalExampleFile : List Line :=
  [[none], [none],
   [none, some ⟨12345, 4⟩, some ⟨1, 3⟩],
   [none, some ⟨12345, 4⟩, some ⟨1, 3⟩],
   [none, some ⟨98, 2⟩, some ⟨1, 4⟩]]

/-- A 2-line equal-time file whose second line has exactly 2 tokens, for
exercising the inference scan at the boundary. -/
def w3file : List Line := [[some ⟨0, 0⟩, some ⟨0, 0⟩], [some ⟨1, 0⟩, some ⟨1, 0⟩]]

/-- Concrete well-formed blocks with N_orb = 1, N_x = 2. -/
def wblocks : List Block :=
  [⟨⟨0, 0⟩, ⟨0, 0⟩, [⟨none, none, ⟨1, 0⟩, ⟨2, 0⟩, ⟨3, 0⟩, ⟨4, 0⟩⟩]⟩,
   ⟨⟨1, 0⟩, ⟨0, 0⟩, [⟨none, none, ⟨5, 0⟩, ⟨6, 0⟩, ⟨7, 0⟩, ⟨8, 0⟩⟩]⟩]

/-- The name of the hamiltonian used in concrete witnesses. -/
def hubbardName : String := "Hubbard"

/-- Override keys and a looked-up parameter name used in witnesses. -/
def hamUKey : String := "ham_u"

def betaKey : String := "beta"

def betaVarName : String := "Beta"

/-! ## Generic helper lemmas -/

theorem mapO_eq_map (f : α → Option β) (g : α → β) :
    ∀ l : List α, (∀ a ∈ l, f a = some (g a)) → mapO f l = some (l.map g)
  | [], _ => rfl
  | a :: l, h => by
    rw [List.map_cons, mapO, h a (List.mem_cons_self a l),
      mapO_eq_map f g l (fun b hb => h b (List.mem_cons_of_mem a hb))]

theorem takeLast_append (k : Nat) (xs ys : List α) (h : ys.length = k) :
    takeLast k (xs ++ ys) = ys := by
  have : xs.length + ys.length - k = xs.length := by omega
  rw [takeLast, List.length_append, this, List.drop_left]

theorem getElem?_some_getD (l : List α) (i : Nat) (d : α) (h : i < l.length) :
    l[i]? = some (l.getD i d) := by
  rw [List.getElem?_eq_getElem h, List.getD_eq_getElem l d h]

theorem range_map_getD (l : List α) (g : α → β) (d : α) :
    (List.range l.length).map (fun i => g (l.getD i d)) = l.map g := by
  induction l with
  | nil => rfl
  | cons a t ih =>
    rw [List.length_cons, List.range_succ_eq_map, List.map_cons, List.map_map]
    refine congrArg₂ _ rfl ?_
    rw [show ((fun i => g ((a :: t).getD i d)) ∘ Nat.succ) = (fun i => g (t.getD i d))
      from funext fun i => rfl]
    exact ih

theorem pairFlatten_length (l : List β) (f g : β → α) :
    ((l.map (fun p => [f p, g p])).flatten).length = 2 * l.length := by
  induction l with
  | nil => rfl
  | cons p t ih =>
    simp only [List.map_cons, List.flatten_cons, List.length_append, ih,
      List.length_cons, List.length_nil]
    omega

theorem pairFlatten_getElem_even (l : List β) (f g : β → α) (i : Nat) :
    ((l.map (fun p => [f p, g p])).flatten)[2 * i]? = (l[i]?).map f := by
  induction l generalizing i with
  | nil => simp
  | cons p t ih =>
    cases i with
    | zero => simp
    | succ i =>
      have h2 : 2 * (i + 1) = 2 * i + 1 + 1 := by ring
      simp only [List.map_cons, List.flatten_cons, List.cons_append, List.nil_append, h2,
        List.getElem?_cons_succ, ih]

theorem mkEqFile_cons (b : Block) (t : List Block) :
    mkEqFile (b :: t) = b.toLines ++ mkEqFile t := by
  rw [mkEqFile, List.map_cons, List.flatten_cons, mkEqFile]

theorem block_toLines_length (b : Block) (m : Nat) (h : b.rows.length = m) :
    b.toLines.length = 1 + m := by
  simp [Block.toLines, Block.header, h]
  omega

theorem mkEqFile_length (blocks : List Block) (m : Nat)
    (h : ∀ b ∈ blocks, b.rows.length = m) :
    (mkEqFile blocks).length = blocks.length * (1 + m) := by
  induction blocks with
  | nil => simp [mkEqFile]
  | cons b t ih =>
    rw [mkEqFile_cons, List.length_append,
      block_toLines_length b m (h b (List.mem_cons_self b t)),
      ih (fun b2 hb => h b2 (List.mem_cons_of_mem b hb)), List.length_cons]
    ring

theorem mkEqFile_getElem (blocks : List Block) (m : Nat)
    (h : ∀ b ∈ blocks, b.rows.length = m) (i j : Nat) (hj : j < 1 + m) :
    (mkEqFile blocks)[i * (1 + m) + j]? = (blocks[i]?).bind (fun b => b.toLines[j]?) := by
  induction blocks generalizing i with
  | nil => simp [mkEqFile]
  | cons b t ih =>
    have hb : b.toLines.length = 1 + m :=
      block_toLines_length b m (h b (List.mem_cons_self b t))
    rw [mkEqFile_cons]
    cases i with
    | zero =>
      rw [Nat.zero_mul, Nat.zero_add, List.getElem?_append, if_pos (by omega)]
      simp
    | succ i =>
      have harith : (i + 1) * (1 + m) + j = b.toLines.length + (i * (1 + m) + j) := by
        rw [hb]; ring
      rw [harith, List.getElem?_append, if_neg (by omega), Nat.add_sub_cancel_left,
        ih (fun b2 hb2 => h b2 (List.mem_cons_of_mem b hb2)) i]
      simp

theorem scanShort_append (xs ys : List Line) (i : Nat)
    (h : ∀ l ∈ xs, l.length ≠ 2) :
    scanShort (xs ++ ys) i = scanShort ys (i + xs.length) := by
  induction xs generalizing i with
  | nil => simp [scanShort]
  | cons l t ih =>
    rw [List.cons_append, scanShort, if_neg (h l (List.mem_cons_self l t)),
      ih (i + 1) (fun l2 hl => h l2 (List.mem_cons_of_mem l hl)), List.length_cons]
    ring_nf

/-! ## Scalar parser: behavior on well-formed and odd-length files -/

theorem takeLast_toLine (r : ScalRow) :
    takeLast 2 r.toLine = [some r.mean, some r.err] :=
  takeLast_append 2 r.pre [some r.mean, some r.err] rfl

theorem getD_map_lt (l : List α) (f : α → β) (d : α) (d2 : β) (i : Nat)
    (h : i < l.length) :
    (l.map f).getD i d2 = f (l.getD i d) := by
  rw [List.getD_eq_getElem _ d2 (by simpa using h), List.getD_eq_getElem _ d h,
    List.getElem_map]

theorem scalItem_eq (lines : List Line) (obsRows : List ScalRow) (i : Nat)
    (hidx : lines[2 * i + 2]? = some ((obsRows.getD i dSRow).toLine)) :
    scalItem lines i =
      some [(obsRows.getD i dSRow).mean, (obsRows.getD i dSRow).err] := by
  rw [scalItem, hidx]
  show (loadtxt (takeLast 2 ((obsRows.getD i dSRow).toLine))).bind _ = _
  rw [takeLast_toLine]
  rfl

theorem read_scalJ_core (lines : List Line) (obsRows : List ScalRow)
    (sPre : List Tok) (s1 s2 : Val)
    (hlast : lines.getLast? = some (sPre ++ [some s1, some s2]))
    (hN : (lines.length - 2) / 2 = obsRows.length)
    (hidx : ∀ i, i < obsRows.length →
      lines[2 * i + 2]? = some ((obsRows.getD i dSRow).toLine)) :
    read_scalJ lines = some ⟨[s1, s2], obsRows.map (fun r => [r.mean, r.err])⟩ := by
  have hsign : loadtxt (takeLast 2 (sPre ++ [some s1, some s2])) = some [s1, s2] := by
    rw [takeLast_append 2 sPre [some s1, some s2] rfl]; rfl
  have h1 : mapO (scalItem lines) (List.range obsRows.length) =
      some ((List.range obsRows.length).map
        (fun i => [(obsRows.getD i dSRow).mean, (obsRows.getD i dSRow).err])) :=
    mapO_eq_map _ _ _
      (fun i hi => scalItem_eq lines obsRows i (hidx i (List.mem_range.mp hi)))
  have h2 := range_map_getD obsRows (fun r => [r.mean, r.err]) dSRow
  rw [read_scalJ, hlast]
  show (loadtxt (takeLast 2 (sPre ++ [some s1, some s2]))).bind _ = _
  rw [hsign]
  show (mapO (scalItem lines) (List.range ((lines.length - 2) / 2))).bind _ = _
  rw [hN, h1]
  show some (ScalJRec.mk [s1, s2] _) = _
  exact congrArg _ (congrArg _ h2)

theorem mkScalFile_length (h0 h1 : Line) (rows : List (ScalRow × Line)) :
    (mkScalFile h0 h1 rows).length = 2 + 2 * rows.length := by
  rw [mkScalFile]
  simp only [List.length_cons, pairFlatten_length]
  omega

theorem mkScalFile_getElem (h0 h1 : Line) (rows : List (ScalRow × Line)) (i : Nat) :
    (mkScalFile h0 h1 rows)[2 * i + 2]? = (rows[i]?).map (fun p => p.1.toLine) := by
  rw [mkScalFile]
  have h2 : 2 * i + 2 = (2 * i + 1) + 1 := rfl
  rw [h2, List.getElem?_cons_succ, List.getElem?_cons_succ]
  exact pairFlatten_getElem_even rows (fun p => p.1.toLine) Prod.snd i

theorem mkScalFile_getLast (h0 h1 : Line) (rows : List (ScalRow × Line))
    (p : ScalRow × Line) :
    (mkScalFile h0 h1 (rows ++ [p])).getLast? = some p.2 := by
  have : mkScalFile h0 h1 (rows ++ [p]) =
      (h0 :: h1 :: ((rows.map (fun q => [q.1.toLine, q.2])).flatten ++ [p.1.toLine]))
        ++ [p.2] := by
    rw [mkScalFile, List.map_append, List.flatten_append]
    simp
  rw [this]
  exact List.getLast?_concat _

/-! ## Equal-time parser: inference and behavior on well-formed files -/

theorem sqrtAux_eq (n k : Nat) (h : Nat.sqrt n ≤ k) : sqrtAux n k = Nat.sqrt n := by
  induction k with
  | zero => simpa [sqrtAux] using (Nat.le_antisymm h (Nat.zero_le _)).symm
  | succ k ih =>
    rw [sqrtAux]
    by_cases hk : (k + 1) * (k + 1) ≤ n
    · have h1 : k + 1 ≤ Nat.sqrt n := Nat.le_sqrt.mpr hk
      rw [if_pos hk]
      omega
    · have h2 : Nat.sqrt n < k + 1 := by
        by_contra hc
        push_neg at hc
        exact hk (le_trans (Nat.mul_le_mul hc hc) (Nat.sqrt_le n))
      rw [if_neg hk]
      exact ih (by omega)

theorem isqrt_eq (n : Nat) : isqrt n = Nat.sqrt n :=
  sqrtAux_eq n n (Nat.sqrt_le_self n)

theorem block_toLines_getElem_succ (b : Block) (k : Nat) :
    b.toLines[1 + k]? = (b.rows[k]?).map DataRow.toLine := by
  have h1 : 1 + k = k + 1 := by omega
  rw [Block.toLines, h1, List.getElem?_cons_succ, List.getElem?_map]

theorem infer_N_orb_mkEqFile (blocks : List Block) (m : Nat) (_hm : 1 ≤ m)
    (hlen : 2 ≤ blocks.length) (hrows : ∀ b ∈ blocks, b.rows.length = m ^ 2) :
    infer_N_orb (mkEqFile blocks) = some m := by
  obtain ⟨b0, t0, rfl⟩ : ∃ b0 t0, blocks = b0 :: t0 := by
    cases blocks with
    | nil => simp at hlen
    | cons a t => exact ⟨a, t, rfl⟩
  obtain ⟨b1, t1, rfl⟩ : ∃ b1 t1, t0 = b1 :: t1 := by
    cases t0 with
    | nil => simp at hlen
    | cons a t => exact ⟨a, t, rfl⟩
  have hL : (mkEqFile (b0 :: b1 :: t1)).length = (t1.length + 2) * (1 + m ^ 2) := by
    rw [mkEqFile_length _ (m ^ 2) hrows, List.length_cons, List.length_cons]
  have hL2 : 2 ≤ (mkEqFile (b0 :: b1 :: t1)).length := by
    rw [hL]
    calc 2 ≤ t1.length + 2 := by omega
    _ ≤ (t1.length + 2) * (1 + m ^ 2) := Nat.le_mul_of_pos_right _ (by omega)
  have hdrop : (mkEqFile (b0 :: b1 :: t1)).drop 1 =
      b0.rows.map DataRow.toLine ++ (b1.header :: ((b1.rows.map DataRow.toLine)
        ++ mkEqFile t1)) := by
    rw [mkEqFile_cons, mkEqFile_cons, Block.toLines, Block.toLines]
    simp
  have hscan : scanShort ((mkEqFile (b0 :: b1 :: t1)).drop 1) 1 = some (1 + m ^ 2) := by
    rw [hdrop, scanShort_append]
    · rw [scanShort, if_pos (by simp [Block.header]), List.length_map,
        hrows b0 (by simp)]
    · intro l hl
      obtain ⟨r, _, rfl⟩ := List.mem_map.mp hl
      simp [DataRow.toLine]
  rw [infer_N_orb, if_neg (by omega), hscan]
  show some (isqrt (1 + m ^ 2 - 1)) = some m
  rw [isqrt_eq]
  have h1 : 1 + m ^ 2 - 1 = m ^ 2 := by omega
  rw [h1, pow_two, Nat.sqrt_eq]

theorem infer_N_x_mkEqFile (blocks : List Block) (m : Nat)
    (hrows : ∀ b ∈ blocks, b.rows.length = m ^ 2) :
    infer_N_x (mkEqFile blocks) m = blocks.length := by
  rw [infer_N_x, mkEqFile_length _ (m ^ 2) hrows]
  exact Nat.mul_div_cancel _ (by omega)

theorem xItem_mkEqFile (blocks : List Block) (m : Nat)
    (hrows : ∀ b ∈ blocks, b.rows.length = m ^ 2) (i : Nat)
    (hi : i < blocks.length) :
    xItem (mkEqFile blocks) m i =
      some [(blocks.getD i dBlock).hx, (blocks.getD i dBlock).hy] := by
  have hidx := mkEqFile_getElem blocks (m ^ 2) hrows i 0 (by omega)
  rw [Nat.add_zero] at hidx
  rw [xItem, hidx, getElem?_some_getD blocks i dBlock hi]
  show ((blocks.getD i dBlock).toLines[0]?).bind _ = _
  rw [show (blocks.getD i dBlock).toLines[0]? = some (blocks.getD i dBlock).header
    from by simp [Block.toLines]]
  rfl

theorem datItem_mkEqFile (blocks : List Block) (m : Nat)
    (hrows : ∀ b ∈ blocks, b.rows.length = m ^ 2) (i o1 o2 : Nat)
    (hi : i < blocks.length) (ho1 : o1 < m) (ho2 : o2 < m) :
    datItem (mkEqFile blocks) m i o1 o2 =
      some (((blocks.getD i dBlock).rows.getD (o1 * m + o2) dRow).vals) := by
  have hb : (blocks.getD i dBlock).rows.length = m ^ 2 := by
    refine hrows _ ?_
    rw [List.getD_eq_getElem _ _ hi]
    exact List.getElem_mem _
  have hk : o1 * m + o2 < m ^ 2 := by
    have h1 : o1 * m + o2 < (o1 + 1) * m := by
      have : (o1 + 1) * m = o1 * m + m := by ring
      omega
    have h2 : (o1 + 1) * m ≤ m * m := Nat.mul_le_mul_right m ho1
    rw [pow_two]
    omega
  have hjj : 1 + (o1 * m + o2) < 1 + m ^ 2 := by omega
  have hidx := mkEqFile_getElem blocks (m ^ 2) hrows i (1 + (o1 * m + o2)) hjj
  have harith : i * (1 + m ^ 2) + 1 + o1 * m + o2 =
      i * (1 + m ^ 2) + (1 + (o1 * m + o2)) := by omega
  rw [datItem, harith, hidx, getElem?_some_getD blocks i dBlock hi]
  show (((blocks.getD i dBlock).toLines[1 + (o1 * m + o2)]?).bind _) = _
  rw [block_toLines_getElem_succ,
    getElem?_some_getD _ (o1 * m + o2) dRow (by omega)]
  rfl

theorem read_eqJ_mkEqFile (s : KR) (blocks : List Block) (m : Nat)
    (hm : 1 ≤ m) (hlen : 2 ≤ blocks.length)
    (hrows : ∀ b ∈ blocks, b.rows.length = m ^ 2) :
    read_eqJ s (mkEqFile blocks) =
      some ⟨x_name s,
        blocks.map (fun b => [b.hx, b.hy]),
        blocks.map (fun b => (List.range m).map (fun o1 =>
          (List.range m).map (fun o2 => (b.rows.getD (o1 * m + o2) dRow).vals)))⟩ := by
  have hx : mapO (xItem (mkEqFile blocks) m) (List.range blocks.length) =
      some (blocks.map (fun b => [b.hx, b.hy])) := by
    rw [mapO_eq_map _
      (fun i => [(blocks.getD i dBlock).hx, (blocks.getD i dBlock).hy]) _
      (fun i hi => xItem_mkEqFile blocks m hrows i (List.mem_range.mp hi))]
    exact congrArg some (range_map_getD blocks (fun b => [b.hx, b.hy]) dBlock)
  have hdat : mapO (fun i_x =>
      mapO (fun i_orb1 =>
          mapO (datItem (mkEqFile blocks) m i_x i_orb1) (List.range m))
        (List.range m)) (List.range blocks.length) =
      some (blocks.map (fun b => (List.range m).map (fun o1 =>
        (List.range m).map (fun o2 => (b.rows.getD (o1 * m + o2) dRow).vals)))) := by
    rw [mapO_eq_map _
      (fun i => (List.range m).map (fun o1 => (List.range m).map (fun o2 =>
        ((blocks.getD i dBlock).rows.getD (o1 * m + o2) dRow).vals)))]
    · exact congrArg some (range_map_getD blocks
        (fun b => (List.range m).map (fun o1 => (List.range m).map (fun o2 =>
          (b.rows.getD (o1 * m + o2) dRow).vals))) dBlock)
    · intro i hi
      rw [mapO_eq_map _
        (fun o1 => (List.range m).map (fun o2 =>
          ((blocks.getD i dBlock).rows.getD (o1 * m + o2) dRow).vals))]
      intro o1 ho1
      rw [mapO_eq_map _
        (fun o2 => ((blocks.getD i dBlock).rows.getD (o1 * m + o2) dRow).vals)]
      intro o2 ho2
      exact datItem_mkEqFile blocks m hrows i o1 o2 (List.mem_range.mp hi)
        (List.mem_range.mp ho1) (List.mem_range.mp ho2)
  rw [read_eqJ, infer_N_orb_mkEqFile blocks m hm hlen hrows]
  show (mapO (xItem (mkEqFile blocks) m)
    (List.range (infer_N_x (mkEqFile blocks) m))).bind _ = _
  rw [infer_N_x_mkEqFile blocks m hrows, hx]
  show (mapO (fun i_x =>
      mapO (fun i_orb1 =>
          mapO (datItem (mkEqFile blocks) m i_x i_orb1) (List.range m))
        (List.range m)) (List.range blocks.length)).bind _ = _
  rw [hdat]
  rfl

/-! ## Characterization of the shape-inference scan -/

theorem scanShort_found (ls : List Line) (i0 k : Nat)
    (hk : k < ls.length) (h2 : (ls.getD k []).length = 2)
    (hmin : ∀ j, j < k → (ls.getD j []).length ≠ 2) :
    scanShort ls i0 = some (i0 + k) := by
  induction ls generalizing i0 k with
  | nil => simp at hk
  | cons l t ih =>
    cases k with
    | zero =>
      have h2l : l.length = 2 := h2
      rw [scanShort, if_pos h2l, Nat.add_zero]
    | succ k =>
      have h0l : ¬ l.length = 2 := hmin 0 (Nat.succ_pos k)
      rw [scanShort, if_neg h0l]
      rw [ih (i0 + 1) k (by simpa using hk) h2 (fun j hj => hmin (j + 1) (by omega))]
      congr 1
      omega

theorem scanShort_missing (ls : List Line) (i0 : Nat)
    (h : ∀ j, j < ls.length → (ls.getD j []).length ≠ 2) :
    scanShort ls i0 = none := by
  induction ls generalizing i0 with
  | nil => rfl
  | cons l t ih =>
    have h0l : ¬ l.length = 2 := h 0 (by simp)
    rw [scanShort, if_neg h0l]
    exact ih (i0 + 1) (fun j hj => h (j + 1) (by simpa using hj))

theorem getD_drop_one (lines : List Line) (k : Nat) :
    (lines.drop 1).getD k [] = lines.getD (k + 1) [] := by
  cases lines with
  | nil => rfl
  | cons a t => rfl

/-! ## Parameter machinery: lemmas on update and lookup -/

theorem updEntries_eq_none_iff (var : String) (v : PVal) (es : List Entry) :
    updEntries var v es = none ↔ ∀ e ∈ es, lowerStr e.1 ≠ lowerStr var := by
  induction es with
  | nil => simp [updEntries]
  | cons e t ih =>
    obtain ⟨nm, oldv, c⟩ := e
    rw [updEntries]
    by_cases h : lowerStr nm = lowerStr var
    · simp [h]
    · simp [h, ih]

theorem updEntries_names (var : String) (v : PVal) (es es' : List Entry)
    (h : updEntries var v es = some es') :
    es'.map (fun e => e.1) = es.map (fun e => e.1) := by
  induction es generalizing es' with
  | nil => simp [updEntries] at h
  | cons e t ih =>
    obtain ⟨nm, oldv, c⟩ := e
    rw [updEntries] at h
    by_cases hnm : lowerStr nm = lowerStr var
    · rw [if_pos hnm] at h
      cases h
      simp
    · rw [if_neg hnm] at h
      cases ht : updEntries var v t with
      | none => rw [ht] at h; simp at h
      | some t2 =>
        rw [ht] at h
        have h2 : some ((nm, oldv, c) :: t2) = some es' := h
        cases h2
        simp [ih t2 ht]

theorem update_var_eq_none_iff (var : String) (v : PVal) (params : Params) :
    update_var var v params = none ↔ ¬ KnownVar params var := by
  induction params with
  | nil => simp [update_var, KnownVar]
  | cons nl t ih =>
    obtain ⟨nm, es⟩ := nl
    rw [update_var]
    cases h : updEntries var v es with
    | some es2 =>
      show some ((nm, es2) :: t) = none ↔ ¬ KnownVar ((nm, es) :: t) var
      constructor
      · intro hc; exact absurd hc (by simp)
      · intro hc
        exfalso
        apply hc
        have hne : ¬ ∀ e ∈ es, lowerStr e.1 ≠ lowerStr var := by
          intro hall
          rw [← updEntries_eq_none_iff var v es] at hall
          rw [h] at hall
          exact Option.noConfusion hall
        push_neg at hne
        obtain ⟨e, he, hme⟩ := hne
        exact ⟨(nm, es), by simp, e, he, hme⟩
    | none =>
      rw [updEntries_eq_none_iff] at h
      show (update_var var v t).map ((nm, es) :: ·) = none ↔ _
      rw [Option.map_eq_none', ih]
      constructor
      · intro hk1 hk2
        obtain ⟨nl2, hnl2, e, he, hme⟩ := hk2
        rcases List.mem_cons.mp hnl2 with h1 | h2
        · rw [h1] at he
          exact h e he hme
        · exact hk1 ⟨nl2, h2, e, he, hme⟩
      · intro hk1 hk2
        obtain ⟨nl2, hnl2, e, he, hme⟩ := hk2
        exact hk1 ⟨nl2, List.mem_cons_of_mem _ hnl2, e, he, hme⟩

theorem update_var_varNames (var : String) (v : PVal) (params ps' : Params)
    (h : update_var var v params = some ps') :
    varNames ps' = varNames params := by
  induction params generalizing ps' with
  | nil => simp [update_var] at h
  | cons nl t ih =>
    obtain ⟨nm, es⟩ := nl
    rw [update_var] at h
    cases he : updEntries var v es with
    | some es2 =>
      rw [he] at h
      cases h
      simp only [varNames, List.map_cons]
      rw [updEntries_names var v es es2 he]
    | none =>
      rw [he] at h
      cases ht : update_var var v t with
      | none => rw [ht] at h; simp at h
      | some t2 =>
        rw [ht] at h
        simp only [Option.map_some] at h
        cases h
        simp only [varNames, List.map_cons]
        have := ih t2 ht
        simp only [varNames] at this
        rw [this]

theorem KnownVar_of_varNames (params ps' : Params)
    (h : varNames ps' = varNames params) (var : String) :
    KnownVar ps' var ↔ KnownVar params var := by
  have key : ∀ qs : Params, KnownVar qs var ↔
      ∃ p ∈ varNames qs, ∃ n ∈ p.2, lowerStr n = lowerStr var := by
    intro qs
    constructor
    · rintro ⟨nl, hnl, e, he, hme⟩
      exact ⟨(nl.1, nl.2.map (fun e2 => e2.1)), List.mem_map_of_mem _ hnl,
        e.1, List.mem_map_of_mem _ he, hme⟩
    · rintro ⟨p, hp, n, hn, hmn⟩
      obtain ⟨nl, hnl, rfl⟩ := List.mem_map.mp hp
      obtain ⟨e, he, rfl⟩ := List.mem_map.mp hn
      exact ⟨nl, hnl, e, he, hmn⟩
  rw [key, key, h]

theorem findVal_upd_self (var : String) (v : PVal) (es es' : List Entry)
    (h : updEntries var v es = some es') : findVal var es' = some v := by
  induction es generalizing es' with
  | nil => simp [updEntries] at h
  | cons e t ih =>
    obtain ⟨nm, oldv, c⟩ := e
    rw [updEntries] at h
    by_cases hnm : lowerStr nm = lowerStr var
    · rw [if_pos hnm] at h
      cases h
      rw [findVal, if_pos hnm]
    · rw [if_neg hnm] at h
      cases ht : updEntries var v t with
      | none => rw [ht] at h; simp at h
      | some t2 =>
        rw [ht] at h
        have h2 : some ((nm, oldv, c) :: t2) = some es' := h
        cases h2
        rw [findVal, if_neg hnm]
        exact ih t2 ht

theorem findVal_upd_frame (var : String) (v : PVal) (es es' : List Entry)
    (h : updEntries var v es = some es') (var2 : String)
    (hne : lowerStr var2 ≠ lowerStr var) :
    findVal var2 es' = findVal var2 es := by
  induction es generalizing es' with
  | nil => simp [updEntries] at h
  | cons e t ih =>
    obtain ⟨nm, oldv, c⟩ := e
    rw [updEntries] at h
    by_cases hnm : lowerStr nm = lowerStr var
    · rw [if_pos hnm] at h
      cases h
      have hcond : ¬ lowerStr nm = lowerStr var2 := by
        intro hc
        exact hne (hc.symm.trans hnm)
      rw [findVal, if_neg hcond, findVal, if_neg hcond]
    · rw [if_neg hnm] at h
      cases ht : updEntries var v t with
      | none => rw [ht] at h; simp at h
      | some t2 =>
        rw [ht] at h
        have h2 : some ((nm, oldv, c) :: t2) = some es' := h
        cases h2
        rw [findVal, findVal]
        by_cases hc2 : lowerStr nm = lowerStr var2
        · rw [if_pos hc2, if_pos hc2]
        · rw [if_neg hc2, if_neg hc2]
          exact ih t2 ht

theorem findVal_eq_none (var : String) (es : List Entry)
    (h : ∀ e ∈ es, lowerStr e.1 ≠ lowerStr var) : findVal var es = none := by
  induction es with
  | nil => rfl
  | cons e t ih =>
    rw [findVal, if_neg (h e (List.mem_cons_self e t))]
    exact ih (fun e2 he2 => h e2 (List.mem_cons_of_mem e he2))

theorem lookupVar_update_self (var : String) (v : PVal) (params ps' : Params)
    (h : update_var var v params = some ps') : lookupVar ps' var = some v := by
  induction params generalizing ps' with
  | nil => simp [update_var] at h
  | cons nl t ih =>
    obtain ⟨nm, es⟩ := nl
    rw [update_var] at h
    cases he : updEntries var v es with
    | some es2 =>
      rw [he] at h
      have h2 : some ((nm, es2) :: t) = some ps' := h
      cases h2
      rw [lookupVar, findVal_upd_self var v es es2 he]
    | none =>
      rw [he] at h
      cases ht : update_var var v t with
      | none => rw [ht] at h; simp at h
      | some t2 =>
        rw [ht] at h
        have h2 : some ((nm, es) :: t2) = some ps' := h
        cases h2
        rw [lookupVar, findVal_eq_none var es ((updEntries_eq_none_iff var v es).mp he)]
        exact ih t2 ht

theorem lookupVar_update_frame (var : String) (v : PVal) (params ps' : Params)
    (h : update_var var v params = some ps') (var2 : String)
    (hne : lowerStr var2 ≠ lowerStr var) :
    lookupVar ps' var2 = lookupVar params var2 := by
  induction params generalizing ps' with
  | nil => simp [update_var] at h
  | cons nl t ih =>
    obtain ⟨nm, es⟩ := nl
    rw [update_var] at h
    cases he : updEntries var v es with
    | some es2 =>
      rw [he] at h
      have h2 : some ((nm, es2) :: t) = some ps' := h
      cases h2
      rw [lookupVar, lookupVar, findVal_upd_frame var v es es2 he var2 hne]
    | none =>
      rw [he] at h
      cases ht : update_var var v t with
      | none => rw [ht] at h; simp at h
      | some t2 =>
        rw [ht] at h
        have h2 : some ((nm, es) :: t2) = some ps' := h
        cases h2
        rw [lookupVar, lookupVar]
        cases hf : findVal var2 es with
        | some w => rfl
        | none => exact ih t2 ht

theorem apply_updates_varNames (d : Dict) (params ps : Params)
    (h : apply_updates d params = some ps) : varNames ps = varNames params := by
  revert h
  induction d generalizing params ps with
  | nil =>
    intro h
    have h2 : some params = some ps := h
    cases h2
    rfl
  | cons kw rest ih =>
    intro h
    obtain ⟨k, w⟩ := kw
    rw [apply_updates] at h
    cases hu : update_var k w params with
    | none => rw [hu] at h; exact Option.noConfusion h
    | some ps1 =>
      rw [hu] at h
      have h2 : apply_updates rest ps1 = some ps := h
      exact (ih ps1 ps h2).trans (update_var_varNames k w params ps1 hu)

theorem apply_updates_isSome_iff (d : Dict) (params : Params) :
    (apply_updates d params).isSome ↔ ∀ kv ∈ d, KnownVar params kv.1 := by
  induction d generalizing params with
  | nil => simp [apply_updates]
  | cons kw rest ih =>
    obtain ⟨k, w⟩ := kw
    rw [apply_updates]
    cases hu : update_var k w params with
    | none =>
      rw [update_var_eq_none_iff] at hu
      constructor
      · intro habs; simp at habs
      · intro hall; exact absurd (hall (k, w) (by simp)) hu
    | some ps1 =>
      have hv : varNames ps1 = varNames params := update_var_varNames _ _ _ _ hu
      have hknown : KnownVar params k := by
        by_contra hk
        rw [← update_var_eq_none_iff k w params] at hk
        rw [hu] at hk
        exact Option.noConfusion hk
      rw [ih ps1]
      constructor
      · intro hall kv hkv
        rcases List.mem_cons.mp hkv with h1 | h2
        · rw [h1]
          exact hknown
        · exact (KnownVar_of_varNames params ps1 hv kv.1).mp (hall kv h2)
      · intro hall kv hkv
        exact (KnownVar_of_varNames params ps1 hv kv.1).mpr
          (hall kv (List.mem_cons_of_mem _ hkv))

theorem apply_updates_frame (d : Dict) (params ps : Params) (v : String)
    (h : apply_updates d params = some ps)
    (hv : ∀ kv ∈ d, lowerStr kv.1 ≠ lowerStr v) :
    lookupVar ps v = lookupVar params v := by
  revert h hv
  induction d generalizing params ps with
  | nil =>
    intro h hv
    have h2 : some params = some ps := h
    cases h2
    rfl
  | cons kw rest ih =>
    intro h hv
    obtain ⟨k, w⟩ := kw
    rw [apply_updates] at h
    cases hu : update_var k w params with
    | none => rw [hu] at h; exact Option.noConfusion h
    | some ps1 =>
      rw [hu] at h
      have h2 : apply_updates rest ps1 = some ps := h
      rw [ih ps1 ps h2 (fun kv hk => hv kv (List.mem_cons_of_mem _ hk))]
      exact lookupVar_update_frame k w params ps1 hu v
        (Ne.symm (hv (k, w) (by simp)))

theorem apply_updates_lookup (d : Dict) (params ps : Params)
    (h : apply_updates d params = some ps)
    (hdist : d.Pairwise (fun a b => lowerStr a.1 ≠ lowerStr b.1)) :
    ∀ kv ∈ d, lookupVar ps kv.1 = some kv.2 := by
  revert h hdist
  induction d generalizing params ps with
  | nil =>
    intro h hdist kv hkv
    simp at hkv
  | cons kw rest ih =>
    intro h hdist kv hkv
    obtain ⟨k, w⟩ := kw
    rw [apply_updates] at h
    cases hu : update_var k w params with
    | none => rw [hu] at h; exact Option.noConfusion h
    | some ps1 =>
      rw [hu] at h
      have h2 : apply_updates rest ps1 = some ps := h
      rcases List.mem_cons.mp hkv with h1 | hmem
      · have hrest : ∀ kv2 ∈ rest, lowerStr kv2.1 ≠ lowerStr k :=
          fun kv2 hk2 => Ne.symm ((List.pairwise_cons.mp hdist).1 kv2 hk2)
        rw [h1]
        rw [apply_updates_frame rest ps1 ps k h2 hrest]
        exact lookupVar_update_self k w params ps1 hu
      · exact ih ps1 ps h2 (List.pairwise_cons.mp hdist).2 kv hmem

/-! ## Remaining helper lemmas -/

theorem getD_map_range (n : Nat) (g : Nat → β) (d : β) (i : Nat) (h : i < n) :
    ((List.range n).map g).getD i d = g i := by
  rw [getD_map_lt (List.range n) g 0 d i (by simpa using h)]
  rw [List.getD_eq_getElem _ _ (by simpa using h), List.getElem_range]

theorem read_scalJ_mk (h0 h1 : Line) (rows : List (ScalRow × Line)) (lrow : ScalRow)
    (sPre : List Tok) (s1 s2 : Val) :
    read_scalJ (mkScalFile h0 h1 (rows ++ [(lrow, sPre ++ [some s1, some s2])])) =
      some ⟨[s1, s2],
        (rows ++ [(lrow, sPre ++ [some s1, some s2])]).map
          (fun p => [p.1.mean, p.1.err])⟩ := by
  have hc := read_scalJ_core
      (mkScalFile h0 h1 (rows ++ [(lrow, sPre ++ [some s1, some s2])]))
      ((rows ++ [(lrow, sPre ++ [some s1, some s2])]).map Prod.fst) sPre s1 s2
      (mkScalFile_getLast h0 h1 rows (lrow, sPre ++ [some s1, some s2]))
      (by rw [mkScalFile_length]; simp only [List.length_map]; omega)
      (fun i hi => by
        rw [mkScalFile_getElem h0 h1 _ i,
          getElem?_some_getD _ i dPair (by simpa using hi),
          getD_map_lt _ Prod.fst dPair dSRow i (by simpa using hi)]
        rfl)
  rw [hc, List.map_map]
  rfl

theorem read_scalJ_mk_append (h0 h1 : Line) (rows : List (ScalRow × Line))
    (sPre : List Tok) (s1 s2 : Val) :
    read_scalJ (mkScalFile h0 h1 rows ++ [sPre ++ [some s1, some s2]]) =
      some ⟨[s1, s2], rows.map (fun p => [p.1.mean, p.1.err])⟩ := by
  have hc := read_scalJ_core
      (mkScalFile h0 h1 rows ++ [sPre ++ [some s1, some s2]])
      (rows.map Prod.fst) sPre s1 s2
      (List.getLast?_concat _)
      (by
        rw [List.length_append, mkScalFile_length]
        simp only [List.length_map]
        show (2 + 2 * rows.length + 1 - 2) / 2 = rows.length
        omega)
      (fun i hi => by
        rw [List.getElem?_append,
          if_pos (show 2 * i + 2 < (mkScalFile h0 h1 rows).length by
            rw [mkScalFile_length]
            simp only [List.length_map] at hi
            omega),
          mkScalFile_getElem h0 h1 _ i,
          getElem?_some_getD _ i dPair (by simpa using hi),
          getD_map_lt _ Prod.fst dPair dSRow i (by simpa using hi)]
        rfl)
  rw [hc, List.map_map]
  rfl

/-! ## Claim theorems -/

/-- C1 (counterexample): on `c1_file`, whose first data line has 3 leading
label columns and numeric last-4 tokens, the claimed reading ("the last 4
tokens are consumed; an arbitrary number of leading label columns is
tolerated") would succeed, but the parser consumes the tokens from index
2 on (which here differ from the last 4) and fails with `none`. -/
theorem read_eqJ_leading_labels_cex :
    loadtxt (takeLast 4 c1_line) = some [⟨1, 0⟩, ⟨2, 0⟩, ⟨3, 0⟩, ⟨4, 0⟩] ∧
    c1_line.drop 2 ≠ takeLast 4 c1_line ∧
    read_eqJ KR.R c1_file = none := by decide

/-- C1 (amended): for every well-formed equal-time file, each data line
contributes the tokens from index 2 on — exactly the first 2 label
columns are skipped, not an arbitrary number — as the 4-component vector
`dat[i_x, orbital1, orbital2]`; for the well-formed 6-token data lines
this coincides with the last 4 tokens. -/
theorem read_eqJ_data_drop2 (s : KR) (blocks : List Block) (m : Nat)
    (hm : 1 ≤ m) (hlen : 2 ≤ blocks.length)
    (hrows : ∀ b ∈ blocks, b.rows.length = m ^ 2) :
    ∃ x dat, read_eqJ s (mkEqFile blocks) = some ⟨x_name s, x, dat⟩ ∧
      ∀ i, i < blocks.length → ∀ o1, o1 < m → ∀ o2, o2 < m →
        ((dat.getD i []).getD o1 []).getD o2 [] =
            ((blocks.getD i dBlock).rows.getD (o1 * m + o2) dRow).vals ∧
          loadtxt ((((blocks.getD i dBlock).rows.getD (o1 * m + o2) dRow).toLine).drop 2) =
            some (((blocks.getD i dBlock).rows.getD (o1 * m + o2) dRow).vals) ∧
          (((blocks.getD i dBlock).rows.getD (o1 * m + o2) dRow).toLine).drop 2 =
            takeLast 4 (((blocks.getD i dBlock).rows.getD (o1 * m + o2) dRow).toLine) := by
  refine ⟨_, _, read_eqJ_mkEqFile s blocks m hm hlen hrows, ?_⟩
  intro i hi o1 ho1 o2 ho2
  refine ⟨?_, rfl, rfl⟩
  rw [getD_map_lt blocks _ dBlock [] i hi]
  show (((List.range m).map (fun o3 => (List.range m).map (fun o4 =>
    ((blocks.getD i dBlock).rows.getD (o3 * m + o4) dRow).vals))).getD o1 []).getD o2 [] = _
  rw [getD_map_range m _ [] o1 ho1]
  show ((List.range m).map (fun o4 =>
    ((blocks.getD i dBlock).rows.getD (o1 * m + o4) dRow).vals)).getD o2 [] = _
  rw [getD_map_range m _ [] o2 ho2]

/-- C1 witness: the amended data-extraction theorem instantiated on
concrete blocks with N_orb = 1, N_x = 2. -/
theorem read_eqJ_data_drop2_witness :
    (1 ≤ 1 ∧ 2 ≤ wblocks.length ∧ ∀ b ∈ wblocks, b.rows.length = 1 ^ 2) ∧
    (∃ x dat, read_eqJ KR.R (mkEqFile wblocks) = some ⟨x_name KR.R, x, dat⟩ ∧
      ∀ i, i < wblocks.length → ∀ o1, o1 < 1 → ∀ o2, o2 < 1 →
        ((dat.getD i []).getD o1 []).getD o2 [] =
            ((wblocks.getD i dBlock).rows.getD (o1 * 1 + o2) dRow).vals ∧
          loadtxt ((((wblocks.getD i dBlock).rows.getD (o1 * 1 + o2) dRow).toLine).drop 2) =
            some (((wblocks.getD i dBlock).rows.getD (o1 * 1 + o2) dRow).vals) ∧
          (((wblocks.getD i dBlock).rows.getD (o1 * 1 + o2) dRow).toLine).drop 2 =
            takeLast 4 (((wblocks.getD i dBlock).rows.getD (o1 * 1 + o2) dRow).toLine)) :=
  ⟨⟨Nat.le_refl 1, by decide, by decide⟩,
    read_eqJ_data_drop2 KR.R wblocks 1 (by decide) (by decide) (by decide)⟩

/-- C2 (code evaluated at the failing input): on a well-formed
single-block file (N_orb = 1, N_x = 1), the fallback of the inference
loop leaves `i = N_lines - 1` rather than `N_lines`, so `N_orb` is
inferred as `isqrt(N_lines - 2) = 0` instead of 1, `N_x` as 2 instead of
1, and the parse then fails (the data line cannot be assigned to a
length-2 coordinate slot) instead of returning the claimed record. -/
theorem read_eqJ_single_block_fails :
    singleBlockFile.length = 2 ∧
    infer_N_orb singleBlockFile = some 0 ∧
    read_eqJ KR.R singleBlockFile = none := by decide

/-- C3: for every equal-time file on which the inference runs (at least 2
lines), `N_orb = floor(sqrt(i - 1))` where `i` is the index of the first
line, from index 1 on, whose token count equals 2 — or the final scanned
index `N_lines - 1` when no such line exists — and
`N_x = N_lines / (1 + N_orb^2)` by truncating integer division, with any
remainder silently discarded rather than raised. -/
theorem infer_shape_spec (lines : List Line) (hlen : 2 ≤ lines.length) :
    (∀ i, isFirstShort lines i → infer_N_orb lines = some (Nat.sqrt (i - 1))) ∧
    ((∀ i, ¬ isFirstShort lines i) →
      infer_N_orb lines = some (Nat.sqrt (lines.length - 1 - 1))) ∧
    (∀ n, infer_N_x lines n = lines.length / (1 + n ^ 2)) := by
  refine ⟨?_, ?_, fun n => rfl⟩
  · rintro i ⟨hi1, hi2, hi3, hi4⟩
    have hscan : scanShort (lines.drop 1) 1 = some (1 + (i - 1)) := by
      apply scanShort_found
      · rw [List.length_drop]; omega
      · rw [getD_drop_one]
        have he : i - 1 + 1 = i := by omega
        rw [he]; exact hi3
      · intro j hj
        rw [getD_drop_one]
        exact hi4 (j + 1) (by omega) (by omega)
    rw [infer_N_orb, if_neg (by omega), hscan]
    show some (isqrt (1 + (i - 1) - 1)) = some (Nat.sqrt (i - 1))
    have harg : 1 + (i - 1) - 1 = i - 1 := by omega
    rw [isqrt_eq, harg]
  · intro hno
    have hall : ∀ j, j < (lines.drop 1).length →
        ((lines.drop 1).getD j []).length ≠ 2 := by
      intro j hj hc
      rw [getD_drop_one] at hc
      rw [List.length_drop] at hj
      have hP : ∃ i2, 1 ≤ i2 ∧ i2 < lines.length ∧ (lines.getD i2 []).length = 2 :=
        ⟨j + 1, by omega, by omega, hc⟩
      apply hno (Nat.find hP)
      obtain ⟨ha, hb, hc3⟩ := Nat.find_spec hP
      refine ⟨ha, hb, hc3, ?_⟩
      intro j2 hj2 h1j2 hc2
      have hlt : j2 < lines.length := by omega
      exact Nat.find_min hP hj2 ⟨h1j2, hlt, hc2⟩
    rw [infer_N_orb, if_neg (by omega), scanShort_missing _ 1 hall]
    show some (isqrt (lines.length - 2)) = some (Nat.sqrt (lines.length - 1 - 1))
    have harg : lines.length - 2 = lines.length - 1 - 1 := by omega
    rw [isqrt_eq, harg]

/-- C3 witness: the inference theorem instantiated on a concrete 2-line
file whose second line has 2 tokens, so the first-short index is 1. -/
theorem infer_shape_spec_witness :
    (2 ≤ w3file.length ∧ isFirstShort w3file 1) ∧
    infer_N_orb w3file = some (Nat.sqrt 0) :=
  ⟨⟨by decide, by decide⟩, (infer_shape_spec w3file (by decide)).1 1 (by decide)⟩

/-- C4: for every well-formed scalar file with N observables (2N + 2
lines, synthesized from arbitrary header lines, leading label tokens and
numeric values), parsing returns `obs` of length exactly N, where
`obs[i]` is the last two tokens of line `2*i + 2` and `sign` is the last
two tokens of the final line; all synthesized values are recovered
exactly. -/
theorem read_scalJ_wellformed (h0 h1 : Line) (rows : List (ScalRow × Line))
    (lrow : ScalRow) (sPre : List Tok) (s1 s2 : Val) :
    read_scalJ (mkScalFile h0 h1 (rows ++ [(lrow, sPre ++ [some s1, some s2])])) =
        some ⟨[s1, s2],
          (rows ++ [(lrow, sPre ++ [some s1, some s2])]).map
            (fun p => [p.1.mean, p.1.err])⟩ ∧
      (mkScalFile h0 h1 (rows ++ [(lrow, sPre ++ [some s1, some s2])])).length =
        2 * (rows.length + 1) + 2 ∧
      ((rows ++ [(lrow, sPre ++ [some s1, some s2])]).map
        (fun p => [p.1.mean, p.1.err])).length = rows.length + 1 :=
  ⟨read_scalJ_mk h0 h1 rows lrow sPre s1 s2,
    by rw [mkScalFile_length]; simp only [List.length_append, List.length_cons,
      List.length_nil]; omega,
    by simp⟩

/-- C5: for every well-formed equal-time file with `N_x ≥ 2` blocks of
`1 + N_orb^2` lines each, parsing returns the coordinate axis of length
`N_x` whose entries are the 2 header floats of each block, and `dat` of
shape `[N_x, N_orb, N_orb, 4]`. -/
theorem read_eqJ_shape (s : KR) (blocks : List Block) (m : Nat)
    (hm : 1 ≤ m) (hlen : 2 ≤ blocks.length)
    (hrows : ∀ b ∈ blocks, b.rows.length = m ^ 2) :
    ∃ dat, read_eqJ s (mkEqFile blocks) =
        some ⟨x_name s, blocks.map (fun b => [b.hx, b.hy]), dat⟩ ∧
      (blocks.map (fun b => [b.hx, b.hy])).length = blocks.length ∧
      dat.length = blocks.length ∧
      ∀ p ∈ dat, p.length = m ∧ ∀ q ∈ p, q.length = m ∧ ∀ w ∈ q, w.length = 4 := by
  refine ⟨_, read_eqJ_mkEqFile s blocks m hm hlen hrows, by simp, by simp, ?_⟩
  intro p hp
  obtain ⟨b, hb, rfl⟩ := List.mem_map.mp hp
  refine ⟨by simp, ?_⟩
  intro q hq
  obtain ⟨o1, ho1, rfl⟩ := List.mem_map.mp hq
  refine ⟨by simp, ?_⟩
  intro w hw
  obtain ⟨o2, ho2, rfl⟩ := List.mem_map.mp hw
  rfl

/-- C5 witness: the shape theorem instantiated on concrete blocks with
N_orb = 1, N_x = 2. -/
theorem read_eqJ_shape_witness :
    (1 ≤ 1 ∧ 2 ≤ wblocks.length ∧ ∀ b ∈ wblocks, b.rows.length = 1 ^ 2) ∧
    (∃ dat, read_eqJ KR.K (mkEqFile wblocks) =
        some ⟨x_name KR.K, wblocks.map (fun b => [b.hx, b.hy]), dat⟩ ∧
      (wblocks.map (fun b => [b.hx, b.hy])).length = wblocks.length ∧
      dat.length = wblocks.length ∧
      ∀ p ∈ dat, p.length = 1 ∧ ∀ q ∈ p, q.length = 1 ∧ ∀ w ∈ q, w.length = 4) :=
  ⟨⟨Nat.le_refl 1, by decide, by decide⟩,
    read_eqJ_shape KR.K wblocks 1 (by decide) (by decide) (by decide)⟩

/-- C6 (counterexample): a concrete scalar file with an odd number of
data lines beyond the 2-line header does not raise a format error: the
parse succeeds, silently truncating the observable count. -/
theorem read_scalJ_odd_cex :
    oddScalFile.length = 7 ∧
    read_scalJ oddScalFile =
      some ⟨[⟨9, 0⟩, ⟨5, 1⟩], [[⟨1, 0⟩, ⟨2, 0⟩], [⟨3, 0⟩, ⟨4, 0⟩]]⟩ := by decide

/-- C6 (amended): parsing a scalar file whose data-line count beyond the
2-line header is odd (2N + 3 lines in total) does not raise: the parser
computes `N_obs = (L - 2) / 2` by truncating integer division and
succeeds, returning the N observable pairs and the sign from the final
line. -/
theorem read_scalJ_odd_truncates (h0 h1 : Line) (rows : List (ScalRow × Line))
    (sPre : List Tok) (s1 s2 : Val) :
    (mkScalFile h0 h1 rows ++ [sPre ++ [some s1, some s2]]).length =
        2 * rows.length + 3 ∧
      read_scalJ (mkScalFile h0 h1 rows ++ [sPre ++ [some s1, some s2]]) =
        some ⟨[s1, s2], rows.map (fun p => [p.1.mean, p.1.err])⟩ :=
  ⟨by
    rw [List.length_append, mkScalFile_length]
    show 2 + 2 * rows.length + 1 = 2 * rows.length + 3
    omega,
  read_scalJ_mk_append h0 h1 rows sPre s1 s2⟩

/-- C7: the concrete 5-line scalar file of the spec parses to
`obs = [[1.2345, 0.001]]` and `sign = [0.98, 0.0001]`. -/
theorem read_scalJ_concrete_example :
    read_scalJ scalExampleFile =
      some ⟨[⟨98, 2⟩, ⟨1, 4⟩], [[⟨12345, 4⟩, ⟨1, 3⟩]]⟩ := by decide

/-- C9: both parsers are deterministic and stateless: the record obtained
for a file content is a function of that content (and the K/R suffix)
alone — parsing it after any other sequence of parse calls, or twice,
yields the same record. -/
theorem parsers_pure (pre1 pre2 : List (List Line)) (c : List Line) (s : KR) :
    ((pre1 ++ [c]).map read_scalJ).getLast? = some (read_scalJ c) ∧
    ((pre2 ++ [c]).map read_scalJ).getLast? = some (read_scalJ c) ∧
    ((pre1 ++ [c]).map (read_eqJ s)).getLast? = some (read_eqJ s c) ∧
    ((pre2 ++ [c]).map (read_eqJ s)).getLast? = some (read_eqJ s c) := by
  refine ⟨?_, ?_, ?_, ?_⟩ <;>
    · rw [List.map_append]
      exact List.getLast?_concat _

/-- C8: for every hamiltonian known to the default tables and every
override dictionary with case-insensitively distinct keys, `set_param`
succeeds if and only if every override key matches a known parameter
name of that hamiltonian (case-insensitively); on success each matching
parameter's default is replaced by the override value. -/
theorem set_param_validates (ham : String) (d : Dict) (ps0 : Params)
    (h0 : set_param ham [] = some ps0)
    (hdist : d.Pairwise (fun a b => lowerStr a.1 ≠ lowerStr b.1)) :
    ((set_param ham d).isSome ↔ ∀ kv ∈ d, KnownVar ps0 kv.1) ∧
    (∀ ps, set_param ham d = some ps →
      ∀ kv ∈ d, lookupVar ps kv.1 = some kv.2) := by
  rw [set_param] at h0
  cases hd : default_params ham with
  | none => rw [hd] at h0; exact Option.noConfusion h0
  | some dp =>
    rw [hd] at h0
    have h0' : some (dp ++
        [("VAR_ham_name", [("ham_name", PVal.pStr ham, "Name of Hamiltonian")])]) =
        some ps0 := h0
    cases h0'
    constructor
    · rw [set_param, hd]
      exact apply_updates_isSome_iff d _
    · intro ps hps kv hkv
      rw [set_param, hd] at hps
      exact apply_updates_lookup d _ ps hps hdist kv hkv

/-- C8 witness: `set_param` applied to the Hubbard hamiltonian with the
single override `ham_u` (a known parameter, up to case) succeeds. -/
theorem set_param_validates_witness :
    ([(hamUKey, PVal.pFloat ⟨80, 1⟩)] : Dict).Pairwise
        (fun a b => lowerStr a.1 ≠ lowerStr b.1) ∧
    (set_param hubbardName [(hamUKey, PVal.pFloat ⟨80, 1⟩)]).isSome := by
  have h0 : set_param hubbardName [] = some ((set_param hubbardName []).getD []) := by
    decide
  refine ⟨by simp, ?_⟩
  exact (set_param_validates hubbardName [(hamUKey, PVal.pFloat ⟨80, 1⟩)] _ h0
    (by simp)).1.mpr (by decide)

/-- C10: the module default tables are never mutated (`default_params`
deep-copies them, which the embedding renders as a pure function of
immutable constants), so for any two successive `set_param` calls the
second call's result carries the original default value of every
parameter it does not itself override, whatever the first call's
overrides were. -/
theorem set_param_frame (ham : String) (d1 d2 : Dict) (r1 : Option Params)
    (ps0 ps2 : Params)
    (_h1 : set_param ham d1 = r1)
    (h0 : set_param ham [] = some ps0)
    (h2 : set_param ham d2 = some ps2)
    (v : String) (hv : ∀ kv ∈ d2, lowerStr kv.1 ≠ lowerStr v) :
    lookupVar ps2 v = lookupVar ps0 v := by
  rw [set_param] at h0
  cases hd : default_params ham with
  | none => rw [hd] at h0; exact Option.noConfusion h0
  | some dp =>
    rw [hd] at h0
    have h0' : some (dp ++
        [("VAR_ham_name", [("ham_name", PVal.pStr ham, "Name of Hamiltonian")])]) =
        some ps0 := h0
    cases h0'
    rw [set_param, hd] at h2
    exact apply_updates_frame d2 _ ps2 v h2 hv

/-- C10 witness: after a first call overriding `beta`, a second call
overriding only `ham_u` still sees the default value of `Beta`. -/
theorem set_param_frame_witness :
    (∀ kv ∈ ([(hamUKey, PVal.pFloat ⟨80, 1⟩)] : Dict),
      lowerStr kv.1 ≠ lowerStr betaVarName) ∧
    lookupVar ((set_param hubbardName [(hamUKey, PVal.pFloat ⟨80, 1⟩)]).getD [])
        betaVarName =
      lookupVar ((set_param hubbardName []).getD []) betaVarName := by
  have h0 : set_param hubbardName [] = some ((set_param hubbardName []).getD []) := by
    decide
  have h2 : set_param hubbardName [(hamUKey, PVal.pFloat ⟨80, 1⟩)] =
      some ((set_param hubbardName [(hamUKey, PVal.pFloat ⟨80, 1⟩)]).getD []) := by
    decide
  exact ⟨by decide, set_param_frame hubbardName [(betaKey, PVal.pFloat ⟨99, 1⟩)]
    [(hamUKey, PVal.pFloat ⟨80, 1⟩)]
    (set_param hubbardName [(betaKey, PVal.pFloat ⟨99, 1⟩)]) _ _ rfl h0 h2
    betaVarName (by decide)⟩

end PyAlf
